import Mathlib

/-
Verification of the pronto-worker-2-interior core against its specification.

The Lean definitions below are shallow embeddings of the Python sources:
  - namespace WarningHandler  embeds src/warning_handler.py
  - namespace BlocksToLatex   embeds src/blocks_to_latex.py
  - namespace PdfValidator    embeds src/pdf_validator.py
Text is modelled as List Char; Python dictionaries used as fixed rule
tables are modelled as association lists.
-/

namespace WarningHandler

/-- A warning from the manuscript artifact.  The evaluator reads only the
code field (warning['code'] in the source). -/
structure Warning where
  code : String
deriving DecidableEq, Repr

/-- Decision on how to process a manuscript based on warnings.  Mirrors the
ProcessingDecision dataclass: reason and degradations default to None. -/
structure ProcessingDecision where
  action : String
  reason : Option String
  degradations : Option (List String)
deriving DecidableEq, Repr

/-- The FAIL rule table (self.fail_rules). -/
def fail_rules : List (String × String) :=
  [("DETECTED_IMAGES", "Images not supported in MVP"),
   ("DETECTED_TABLES", "Tables not supported in MVP")]

/-- The DEGRADE rule table (self.degrade_rules). -/
def degrade_rules : List (String × String) :=
  [("DETECTED_FOOTNOTES", "Footnotes rendered inline"),
   ("POEM_LIKE_BLOCKS", "Poetry rendered as blockquotes"),
   ("UNICODE_RISK", "Non-standard characters may render incorrectly"),
   ("EXCESSIVE_WHITESPACE", "Extra spacing normalized"),
   ("CENTERED_TEXT_BLOCKS", "Centered text rendered left-aligned"),
   ("OCR_ARTIFACTS", "OCR errors may affect quality"),
   ("FORMATTING_INCONSISTENCY", "Inconsistent formatting normalized")]

/-- The PROCEED rule table (self.proceed_rules). -/
def proceed_rules : List (String × String) :=
  [("LOW_CHAPTER_CONFIDENCE", "Chapter detection uncertain but proceeding")]

/-- Threshold for multiple DEGRADE warnings (self.max_degrade_warnings). -/
def max_degrade_warnings : Nat := 5

/-- Whether a code is a key of a rule table (Python: code in rules). -/
def codeMatches (rules : List (String × String)) (c : String) : Bool :=
  (rules.lookup c).isSome

/-- Message a rule table associates with a code (Python: rules[code]); the
default is never used on keys that match. -/
def ruleMsg (rules : List (String × String)) (c : String) : String :=
  (rules.lookup c).getD ""

/-- Codes of the warnings matching the FAIL table, in input order
(the fail_warnings list built by evaluate). -/
def failCodes (warnings : List Warning) : List String :=
  (warnings.map Warning.code).filter (codeMatches fail_rules)

/-- Codes of the warnings matching the DEGRADE table, in input order
(the degrade_warnings list built by evaluate). -/
def degradeCodes (warnings : List Warning) : List String :=
  (warnings.map Warning.code).filter (codeMatches degrade_rules)

/-- Human-readable messages of the DEGRADE matching codes, in input order
(the degradations list built by evaluate). -/
def degradeMsgs (warnings : List Warning) : List String :=
  (degradeCodes warnings).map (ruleMsg degrade_rules)

/-- WarningHandler.evaluate: decide FAIL / DEGRADE / PROCEED from the
warnings, mirroring src/warning_handler.py lines 58-132.  The two
PROCEED-table branches of the source both return
ProcessingDecision(action="PROCEED") and so collapse here. -/
def evaluate (warnings : List Warning) : ProcessingDecision :=
  if warnings = [] then ⟨"PROCEED", none, none⟩
  else if failCodes warnings ≠ [] then
    ⟨"FAIL",
     some ("Cannot process: " ++
       String.intercalate ", " ((failCodes warnings).map (ruleMsg fail_rules))),
     none⟩
  else if max_degrade_warnings < (degradeCodes warnings).length then
    ⟨"FAIL",
     some ("Too many edge cases (" ++ toString (degradeCodes warnings).length ++
       " warnings) - quality would be poor"),
     none⟩
  else if degradeCodes warnings ≠ [] then
    ⟨"DEGRADE",
     some (toString (degradeCodes warnings).length ++ " edge cases detected"),
     some (degradeMsgs warnings)⟩
  else ⟨"PROCEED", none, none⟩

/-- The degradations a decision reports; an absent list reports none. -/
def decisionDegradations (d : ProcessingDecision) : List String :=
  d.degradations.getD []

end WarningHandler

namespace BlocksToLatex

/-- Characters of a string literal; Python str is modelled as List Char. -/
def chars (s : String) : List Char := s.toList

/-- An inline style span: the keys type, start and end of a mark dict.
The end offset is spelled stop because end is reserved in Lean. -/
structure Mark where
  type : String
  start : Nat
  stop : Nat
deriving DecidableEq, Repr

/-- The LaTeX escape table self.latex_escapes, in its Python dict
insertion order (backslash last). -/
def latex_escapes : List (Char × List Char) :=
  [('&', chars "\\&"),
   ('%', chars "\\%"),
   ('$', chars "\\$"),
   ('#', chars "\\#"),
   ('_', chars "\\_"),
   ('\x7b', chars "\\\x7b"),
   ('\x7d', chars "\\\x7d"),
   ('~', chars "\\textasciitilde\x7b\x7d"),
   ('^', chars "\\textasciicircum\x7b\x7d"),
   ('\\', chars "\\textbackslash\x7b\x7d")]

/-- One text.replace(char, escaped) step.  The pattern is a single
character, so the replacement rewrites each occurrence independently. -/
def replaceChar (c : Char) (rep : List Char) : List Char → List Char
  | [] => []
  | x :: xs => (if x = c then rep else [x]) ++ replaceChar c rep xs

/-- BlocksToLatexConverter._escape_latex: sequential whole-string
replacements, one per table entry, in table order. -/
def escape_latex (t : List Char) : List Char :=
  latex_escapes.foldl (fun acc p => replaceChar p.1 p.2 acc) t

/-- Modelled from the spec (4.1 step 1): the single left-to-right scan the
spec prescribes for escaping, in which each character of the original text
contributes its table entry (or itself) exactly once.  Stated only for
comparison with escape_latex, which the source implements differently. -/
def escapeSingleScan : List Char → List Char
  | [] => []
  | c :: cs => ((latex_escapes.lookup c).getD [c]) ++ escapeSingleScan cs

/-- Wrap escaped text in the LaTeX command for a mark type (the if/elif
chain of _apply_marks); unknown mark types pass through unwrapped. -/
def wrapMark (ty : String) (inner : List Char) : List Char :=
  if ty = "italic" then chars "\\textit\x7b" ++ inner ++ chars "\x7d"
  else if ty = "bold" then chars "\\textbf\x7b" ++ inner ++ chars "\x7d"
  else if ty = "smallcaps" then chars "\\textsc\x7b" ++ inner ++ chars "\x7d"
  else if ty = "code" then chars "\\texttt\x7b" ++ inner ++ chars "\x7d"
  else inner

/-- Python slice result[start:end] for offsets within bounds. -/
def slice (t : List Char) (s e : Nat) : List Char := (t.drop s).take (e - s)

/-- One loop iteration of _apply_marks: extract result[start:end], escape
it, wrap it, and splice it back in place of [start:end]. -/
def spliceMark (t : List Char) (m : Mark) : List Char :=
  t.take m.start ++
    wrapMark m.type (escape_latex (slice t m.start m.stop)) ++ t.drop m.stop

/-- Insert a mark into a list sorted by start descending, before the
first element whose start is not larger. -/
def insertByStart (m : Mark) : List Mark → List Mark
  | [] => [m]
  | x :: xs => if x.start ≤ m.start then m :: x :: xs else x :: insertByStart m xs

/-- sorted(marks, key=start, reverse=True): stable descending by start. -/
def sortByStartDesc : List Mark → List Mark
  | [] => []
  | m :: ms => insertByStart m (sortByStartDesc ms)

/-- BlocksToLatexConverter._apply_marks: escape the whole text when there
are no marks; otherwise splice each mark in descending-start order,
leaving text outside the mark spans as it is. -/
def apply_marks (t : List Char) (marks : List Mark) : List Char :=
  if marks = [] then escape_latex t
  else (sortByStartDesc marks).foldl spliceMark t

/-- Two marks cover disjoint index ranges. -/
abbrev disjointMarks (a b : Mark) : Prop := a.stop ≤ b.start ∨ b.stop ≤ a.start

/-- A mark is a valid span of the text t: start < end ≤ len(t). -/
abbrev validMark (t : List Char) (m : Mark) : Prop :=
  m.start < m.stop ∧ m.stop ≤ t.length

/-- The decomposition of the overlay output for descending, disjoint,
in-range marks: uncovered slices of the original text appear verbatim
(unescaped) and each covered slice appears escaped and wrapped. -/
def overlayDecomp (t : List Char) : List Mark → List Char
  | [] => t
  | m :: rest =>
      overlayDecomp (t.take m.start) rest ++
        wrapMark m.type (escape_latex (slice t m.start m.stop)) ++ t.drop m.stop

/-- The marks of a descending-sorted list lying strictly to the right of
position p (every span start beyond p); the algorithm processes exactly
these before any mark at or before p. -/
def marksAbove (p : Nat) (ms : List Mark) : List Mark :=
  ms.takeWhile (fun m => decide (p < m.start))

/-- The remaining marks of a descending-sorted list once those strictly
right of position p are removed. -/
def marksBelow (p : Nat) (ms : List Mark) : List Mark :=
  ms.dropWhile (fun m => decide (p < m.start))

/-- How far the character at position p, lying outside every mark span,
is displaced in the overlay output: marks strictly right of p never move
it, and each splice of a mark ending at or before p moves it right by
that splice's length growth, so the total displacement is the length the
string gains while the marks not strictly right of p are processed. -/
def overlayShift (t : List Char) (ms : List Mark) (p : Nat) : Nat :=
  let u1 := List.foldl spliceMark t (marksAbove p (sortByStartDesc ms))
  (List.foldl spliceMark u1 (marksBelow p (sortByStartDesc ms))).length - u1.length

/-- One manuscript block.  The source reads block['type'], block['text'],
block['marks'] and meta.get('chapter_number'); the latter is modelled as
an optional integer. -/
structure Block where
  type : String
  text : String
  marks : List Mark
  chapterNumber : Option Int
deriving DecidableEq, Repr

/-- Python truthiness of meta.get('chapter_number'): absent and 0 are
falsy, any other integer is truthy. -/
def intTruthy : Option Int → Bool
  | none => false
  | some n => n != 0

/-- The numbered chapter command of _convert_chapter_heading. -/
def chapterNumbered (t : List Char) : List Char :=
  chars "\\chapter\x7b" ++ t ++ chars "\x7d"

/-- The unnumbered heading command shared by the heading converters. -/
def chapterUnnumbered (t : List Char) : List Char :=
  chars "\\chapter*\x7b" ++ t ++ chars "\x7d"

/-- The table-of-contents entry shared by the heading converters. -/
def tocEntry (t : List Char) : List Char :=
  chars "\\addcontentsline\x7btoc\x7d\x7bchapter\x7d\x7b" ++ t ++ chars "\x7d"

/-- _convert_chapter_heading: numbered when meta.get('chapter_number') is
truthy, else an unnumbered heading plus a TOC entry. -/
def convert_chapter_heading (t : List Char) (chapterNumber : Option Int) : List Char :=
  if intTruthy chapterNumber then chapterNumbered t
  else chapterUnnumbered t ++ chars "\n" ++ tocEntry t

/-- _convert_front_matter_heading. -/
def convert_front_matter_heading (t : List Char) : List Char :=
  chapterUnnumbered t ++ chars "\n" ++ tocEntry t

/-- _convert_back_matter_heading. -/
def convert_back_matter_heading (t : List Char) : List Char :=
  chapterUnnumbered t ++ chars "\n" ++ tocEntry t

/-- _convert_blockquote. -/
def convert_blockquote (t : List Char) (degraded : Bool) : List Char :=
  if degraded then chars "\\begin\x7bquote\x7d\n" ++ t ++ chars "\n\\end\x7bquote\x7d"
  else chars "\\begin\x7bquotation\x7d\n" ++ t ++ chars "\n\\end\x7bquotation\x7d"

/-- _convert_list_item. -/
def convert_list_item (t : List Char) (degraded : Bool) : List Char :=
  if degraded then chars "• " ++ t else chars "\\item " ++ t

/-- _convert_epigraph. -/
def convert_epigraph (t : List Char) (degraded : Bool) : List Char :=
  if degraded then
    chars "\\begin\x7bflushright\x7d\n\\textit\x7b" ++ t ++ chars "\x7d\n\\end\x7bflushright\x7d"
  else chars "\\epigraph\x7b" ++ t ++ chars "\x7d\x7b\x7d"

/-- BlocksToLatexConverter._convert_block: apply the marks to the block
text and dispatch on the block type.  The image, table and footnote
placeholder branch returns the empty string in non-degraded mode. -/
def convert_block (b : Block) (degraded : Bool) : List Char :=
  let ft := apply_marks (chars b.text) b.marks
  if b.type = "title_page" then chars "% TITLE_PAGE_PLACEHOLDER"
  else if b.type = "front_matter_heading" then convert_front_matter_heading ft
  else if b.type = "front_matter_text" then ft
  else if b.type = "chapter_heading" then convert_chapter_heading ft b.chapterNumber
  else if b.type = "paragraph" then ft
  else if b.type = "scene_break" then chars "\\scenebreak"
  else if b.type = "back_matter_heading" then convert_back_matter_heading ft
  else if b.type = "back_matter_text" then ft
  else if b.type = "blockquote" then convert_blockquote ft degraded
  else if b.type = "list_item" then convert_list_item ft degraded
  else if b.type = "epigraph" then convert_epigraph ft degraded
  else if b.type = "image_placeholder" ∨ b.type = "table_placeholder" ∨ b.type = "footnote" then
    (if degraded then chars "% UNSUPPORTED: " ++ chars b.type else [])
  else ft

/-- The parts the convert loop appends for the blocks: each block whose
fragment is nonempty (truthy) contributes the fragment and a blank line. -/
def blockParts (blocks : List Block) (degraded : Bool) : List (List Char) :=
  blocks.foldr
    (fun b acc =>
      if convert_block b degraded = [] then acc
      else convert_block b degraded :: [] :: acc) []

/-- Python "newline".join(parts). -/
def joinNL : List (List Char) → List Char
  | [] => []
  | [x] => x
  | x :: y :: xs => x ++ chars "\n" ++ joinNL (y :: xs)

/-- BlocksToLatexConverter.convert: the preamble placeholder, a blank
line, then the rendered blocks, joined with newlines.  The params
argument is accepted and never read, as in the source. -/
def convert {α : Type} (blocks : List Block) (params : α) (degraded : Bool) : List Char :=
  joinNL (chars "% PREAMBLE_PLACEHOLDER" :: [] :: blockParts blocks degraded)

end BlocksToLatex

namespace PdfValidator

/-- Errors the validator can append; the message texts of the source are
abstracted to tags, the claims depend only on which checks report. -/
inductive PdfError where
  | fileNotFound
  | fileTooLarge
  | pageCountTooHigh
  | pageCountUnknown
deriving DecidableEq, Repr

/-- Warnings the validator can append. -/
inductive PdfWarning where
  | pageCountLow
  | versionIncompatible
deriving DecidableEq, Repr

/-- The observable facts about a PDF file that validate consumes: whether
the file exists, its byte size, the page count pdfinfo reports (none when
it cannot be determined) and the version string ("unknown" on failure). -/
structure PdfInfo where
  fileExists : Bool
  sizeBytes : Nat
  pageCount : Option Nat
  pdfVersion : String
deriving DecidableEq, Repr

/-- The validation result: valid flag, errors and warnings. -/
structure PdfResult where
  valid : Bool
  errors : List PdfError
  warnings : List PdfWarning
deriving DecidableEq, Repr

/-- The version check pdf_version.startswith('1.'), expressed on the
character list so that it evaluates by reduction. -/
def startsWithOneDot (v : String) : Bool :=
  match v.toList with
  | '1' :: '.' :: _ => true
  | _ => false

/-- self.max_file_size_mb. -/
def max_file_size_mb : Nat := 500

/-- self.min_pages. -/
def min_pages : Nat := 24

/-- self.max_pages. -/
def max_pages : Nat := 828

/-- PDFValidator.validate.  The source compares st_size / (1024*1024)
against the megabyte ceiling in floating point; division by the power of
two 1048576 is exact for file sizes below 2^53, so the comparison equals
the integer comparison size > ceiling * 1048576 used here.  A page count
below min_pages only appends a warning; a page count above max_pages or
an undeterminable page count appends an error.  valid is errors == []. -/
def validate (info : PdfInfo) : PdfResult :=
  if info.fileExists then
    let sizeErrors : List PdfError :=
      if max_file_size_mb * 1048576 < info.sizeBytes then [PdfError.fileTooLarge] else []
    let pageErrors : List PdfError :=
      match info.pageCount with
      | none => [PdfError.pageCountUnknown]
      | some p => if max_pages < p then [PdfError.pageCountTooHigh] else []
    let pageWarnings : List PdfWarning :=
      match info.pageCount with
      | none => []
      | some p => if p < min_pages then [PdfWarning.pageCountLow] else []
    let versionWarnings : List PdfWarning :=
      if info.pdfVersion ≠ "" ∧ startsWithOneDot info.pdfVersion = false then
        [PdfWarning.versionIncompatible]
      else []
    let errors := sizeErrors ++ pageErrors
    ⟨errors = [], errors, pageWarnings ++ versionWarnings⟩
  else ⟨false, [PdfError.fileNotFound], []⟩

end PdfValidator

namespace WarningHandler

theorem failCodes_eq_nil_of (ws : List Warning)
    (hf : ∀ w ∈ ws, codeMatches fail_rules w.code = false) :
    failCodes ws = [] := by
  apply List.filter_eq_nil_iff.mpr
  intro c hc
  obtain ⟨w, hw, rfl⟩ := List.mem_map.mp hc
  simp [hf w hw]

/-- C2: any warning with a FAIL-table code makes evaluate return FAIL, the
reason concatenating (comma-joined) the messages of every FAIL match in
input order; no DEGRADE or PROCEED classification influences the result. -/
theorem evaluate_fail_dominates (ws : List Warning)
    (h : ∃ w ∈ ws, codeMatches fail_rules w.code = true) :
    evaluate ws =
      ⟨"FAIL",
       some ("Cannot process: " ++
         String.intercalate ", " ((failCodes ws).map (ruleMsg fail_rules))),
       none⟩ := by
  obtain ⟨w, hw, hc⟩ := h
  have hnil : ws ≠ [] := by intro hD; subst hD; cases hw
  have hmem : w.code ∈ failCodes ws :=
    List.mem_filter.mpr ⟨List.mem_map_of_mem Warning.code hw, hc⟩
  have hfc : failCodes ws ≠ [] := List.ne_nil_of_mem hmem
  unfold evaluate
  rw [if_neg hnil, if_pos hfc]

/-- Witness for C2: a FAIL code, both FAIL codes collected, and a DEGRADE
code present but ignored. -/
theorem evaluate_fail_dominates_witness :
    evaluate [⟨"DETECTED_IMAGES"⟩, ⟨"DETECTED_TABLES"⟩, ⟨"DETECTED_FOOTNOTES"⟩] =
      ⟨"FAIL",
       some "Cannot process: Images not supported in MVP, Tables not supported in MVP",
       none⟩ := by
  rw [evaluate_fail_dominates _ ⟨⟨"DETECTED_IMAGES"⟩, by decide, by decide⟩]
  decide

/-- C3: with no FAIL-table code present, exactly 5 DEGRADE matches give a
DEGRADE decision, and more than 5 (in particular 6) give a FAIL decision
whose reason reports the count. -/
theorem evaluate_degrade_threshold (ws : List Warning)
    (hf : ∀ w ∈ ws, codeMatches fail_rules w.code = false) :
    ((degradeCodes ws).length = 5 → (evaluate ws).action = "DEGRADE") ∧
    (5 < (degradeCodes ws).length →
      evaluate ws =
        ⟨"FAIL",
         some ("Too many edge cases (" ++ toString (degradeCodes ws).length ++
           " warnings) - quality would be poor"),
         none⟩) := by
  have hfc : failCodes ws = [] := failCodes_eq_nil_of ws hf
  constructor
  · intro h5
    have hne : degradeCodes ws ≠ [] := by
      intro hD; rw [hD] at h5; simp at h5
    have hnil : ws ≠ [] := by intro hD; subst hD; exact hne rfl
    have h3 : ¬ max_degrade_warnings < (degradeCodes ws).length := by
      unfold max_degrade_warnings; omega
    unfold evaluate
    rw [if_neg hnil, if_neg (not_not_intro hfc), if_neg h3, if_pos hne]
  · intro h6
    have hne : degradeCodes ws ≠ [] := by
      intro hD; rw [hD] at h6; simp at h6
    have hnil : ws ≠ [] := by intro hD; subst hD; exact hne rfl
    have h3 : max_degrade_warnings < (degradeCodes ws).length := by
      unfold max_degrade_warnings; omega
    unfold evaluate
    rw [if_neg hnil, if_neg (not_not_intro hfc), if_pos h3]

/-- Witness for C3: five distinct DEGRADE codes give DEGRADE, six give
FAIL reporting the count. -/
theorem evaluate_degrade_threshold_witness :
    (evaluate [⟨"DETECTED_FOOTNOTES"⟩, ⟨"POEM_LIKE_BLOCKS"⟩, ⟨"UNICODE_RISK"⟩,
       ⟨"EXCESSIVE_WHITESPACE"⟩, ⟨"CENTERED_TEXT_BLOCKS"⟩]).action = "DEGRADE" ∧
    evaluate [⟨"DETECTED_FOOTNOTES"⟩, ⟨"POEM_LIKE_BLOCKS"⟩, ⟨"UNICODE_RISK"⟩,
       ⟨"EXCESSIVE_WHITESPACE"⟩, ⟨"CENTERED_TEXT_BLOCKS"⟩, ⟨"OCR_ARTIFACTS"⟩] =
      ⟨"FAIL", some "Too many edge cases (6 warnings) - quality would be poor", none⟩ := by
  constructor
  · exact (evaluate_degrade_threshold
      [⟨"DETECTED_FOOTNOTES"⟩, ⟨"POEM_LIKE_BLOCKS"⟩, ⟨"UNICODE_RISK"⟩,
       ⟨"EXCESSIVE_WHITESPACE"⟩, ⟨"CENTERED_TEXT_BLOCKS"⟩] (by decide)).1 (by decide)
  · have h := (evaluate_degrade_threshold
      [⟨"DETECTED_FOOTNOTES"⟩, ⟨"POEM_LIKE_BLOCKS"⟩, ⟨"UNICODE_RISK"⟩,
       ⟨"EXCESSIVE_WHITESPACE"⟩, ⟨"CENTERED_TEXT_BLOCKS"⟩, ⟨"OCR_ARTIFACTS"⟩] (by decide)).2 (by decide)
    rw [h]; decide

/-- C4: with no FAIL-table code and between 1 and 5 DEGRADE matches,
evaluate returns DEGRADE, the reason reporting the count and the
degradations listing the matching messages in input warning order. -/
theorem evaluate_degrade_collects (ws : List Warning)
    (hf : ∀ w ∈ ws, codeMatches fail_rules w.code = false)
    (hne : degradeCodes ws ≠ [])
    (hle : (degradeCodes ws).length ≤ 5) :
    evaluate ws =
      ⟨"DEGRADE",
       some (toString (degradeCodes ws).length ++ " edge cases detected"),
       some (degradeMsgs ws)⟩ := by
  have hfc : failCodes ws = [] := failCodes_eq_nil_of ws hf
  have hnil : ws ≠ [] := by intro hD; subst hD; exact hne rfl
  have h3 : ¬ max_degrade_warnings < (degradeCodes ws).length := by
    unfold max_degrade_warnings; omega
  unfold evaluate
  rw [if_neg hnil, if_neg (not_not_intro hfc), if_neg h3, if_pos hne]

/-- Witness for C4: the footnotes-then-unicode scenario yields DEGRADE
with the two messages in that order. -/
theorem evaluate_degrade_collects_witness :
    evaluate [⟨"DETECTED_FOOTNOTES"⟩, ⟨"UNICODE_RISK"⟩] =
      ⟨"DEGRADE", some "2 edge cases detected",
       some ["Footnotes rendered inline",
             "Non-standard characters may render incorrectly"]⟩ := by
  rw [evaluate_degrade_collects _ (by decide) (by decide) (by decide)]
  decide

/-- C8: the empty warning sequence gives PROCEED with no degradations, and
so does any warning sequence whose codes match none of the three tables. -/
theorem evaluate_proceed_default :
    (evaluate [] = ⟨"PROCEED", none, none⟩ ∧
      decisionDegradations (evaluate []) = []) ∧
    ∀ ws : List Warning,
      (∀ w ∈ ws, codeMatches fail_rules w.code = false ∧
        codeMatches degrade_rules w.code = false ∧
        codeMatches proceed_rules w.code = false) →
      evaluate ws = ⟨"PROCEED", none, none⟩ ∧
        decisionDegradations (evaluate ws) = [] := by
  refine ⟨⟨rfl, rfl⟩, ?_⟩
  intro ws h
  have hfc : failCodes ws = [] := failCodes_eq_nil_of ws (fun w hw => (h w hw).1)
  have hdc : degradeCodes ws = [] := by
    apply List.filter_eq_nil_iff.mpr
    intro c hc
    obtain ⟨w, hw, rfl⟩ := List.mem_map.mp hc
    simp [(h w hw).2.1]
  by_cases hnil : ws = []
  · subst hnil; exact ⟨rfl, rfl⟩
  · have h3 : ¬ max_degrade_warnings < (degradeCodes ws).length := by
      rw [hdc]; unfold max_degrade_warnings; simp
    have he : evaluate ws = ⟨"PROCEED", none, none⟩ := by
      unfold evaluate
      rw [if_neg hnil, if_neg (not_not_intro hfc), if_neg h3,
        if_neg (not_not_intro hdc)]
    exact ⟨he, by simp [decisionDegradations, he]⟩

/-- Witness for C8: a warning code outside all three tables proceeds. -/
theorem evaluate_proceed_default_witness :
    evaluate [⟨"SOMETHING_UNKNOWN"⟩] = ⟨"PROCEED", none, none⟩ :=
  (evaluate_proceed_default.2 [⟨"SOMETHING_UNKNOWN"⟩] (by decide)).1

end WarningHandler

namespace BlocksToLatex

/-- C1: the source escapes by sequential whole-string replacements, so the
backslash introduced by escaping an ampersand is itself re-escaped by the
later backslash substitution; the single left-to-right scan the spec
prescribes yields the correct single escape sequence, and the two differ
already on the one-character text consisting of an ampersand. -/
theorem escape_latex_double_escapes_ampersand :
    escape_latex (chars "&") = chars "\\textbackslash\x7b\x7d&" ∧
    escapeSingleScan (chars "&") = chars "\\&" ∧
    escape_latex (chars "&") ≠ escapeSingleScan (chars "&") := by
  decide

end BlocksToLatex

namespace BlocksToLatex

theorem replaceChar_length (c : Char) (rep : List Char) (hrep : rep ≠ []) :
    ∀ t : List Char, t.length ≤ (replaceChar c rep t).length := by
  intro t
  induction t with
  | nil => simp [replaceChar]
  | cons x xs ih =>
      have hpos : 0 < rep.length := List.length_pos.mpr hrep
      simp only [replaceChar, List.length_append, List.length_cons]
      by_cases hx : x = c
      · rw [if_pos hx]; simp; omega
      · rw [if_neg hx]; simp; omega

theorem foldl_replaceChar_length (tbl : List (Char × List Char))
    (h : ∀ p ∈ tbl, p.2 ≠ []) :
    ∀ t : List Char,
      t.length ≤ (tbl.foldl (fun acc p => replaceChar p.1 p.2 acc) t).length := by
  induction tbl with
  | nil => intro t; simp
  | cons p ps ih =>
      intro t
      simp only [List.foldl_cons]
      exact le_trans (replaceChar_length p.1 p.2 (h p (List.mem_cons_self p ps)) t)
        (ih (fun q hq => h q (List.mem_cons_of_mem _ hq)) (replaceChar p.1 p.2 t))

theorem escape_latex_length (t : List Char) : t.length ≤ (escape_latex t).length :=
  foldl_replaceChar_length latex_escapes (by decide) t

theorem wrapMark_length (ty : String) (inner : List Char) :
    inner.length ≤ (wrapMark ty inner).length := by
  unfold wrapMark
  split_ifs <;> simp [chars] <;> omega

theorem spliceMark_length (t : List Char) (m : Mark)
    (h1 : m.start < m.stop) (h2 : m.stop ≤ t.length) :
    t.length ≤ (spliceMark t m).length := by
  have h4 := escape_latex_length (slice t m.start m.stop)
  have h3 := wrapMark_length m.type (escape_latex (slice t m.start m.stop))
  have h5 : (slice t m.start m.stop).length =
      min (m.stop - m.start) (t.length - m.start) := by
    simp [slice]
  simp only [spliceMark, List.length_append, List.length_take, List.length_drop]
  omega

theorem spliceMark_append (u v : List Char) (m : Mark)
    (h1 : m.start ≤ u.length) (h2 : m.stop ≤ u.length) :
    spliceMark (u ++ v) m = spliceMark u m ++ v := by
  have hslice : slice (u ++ v) m.start m.stop = slice u m.start m.stop := by
    rw [slice, slice, List.drop_append_of_le_length h1,
      List.take_append_eq_append_take]
    have hz : m.stop - m.start - (u.drop m.start).length = 0 := by
      simp [List.length_drop]; omega
    rw [hz, List.take_zero, List.append_nil]
  rw [spliceMark, spliceMark, List.take_append_of_le_length h1, hslice,
    List.drop_append_of_le_length h2]
  simp [List.append_assoc]

theorem foldl_spliceMark_append (ms : List Mark) :
    ∀ u v : List Char, (∀ m ∈ ms, m.start < m.stop ∧ m.stop ≤ u.length) →
      List.foldl spliceMark (u ++ v) ms = List.foldl spliceMark u ms ++ v := by
  induction ms with
  | nil => intro u v _; simp
  | cons m rest ih =>
      intro u v h
      have hm := h m (List.mem_cons_self m rest)
      simp only [List.foldl_cons]
      rw [spliceMark_append u v m (le_trans (le_of_lt hm.1) hm.2) hm.2]
      apply ih
      intro m' hm'
      have h' := h m' (List.mem_cons_of_mem _ hm')
      exact ⟨h'.1, h'.2.trans (spliceMark_length u m hm.1 hm.2)⟩

theorem foldl_spliceMark_decomp (ms : List Mark) :
    ∀ t : List Char, (∀ m ∈ ms, m.start < m.stop ∧ m.stop ≤ t.length) →
      List.Pairwise (fun a b => b.stop ≤ a.start) ms →
      List.foldl spliceMark t ms = overlayDecomp t ms := by
  induction ms with
  | nil => intro t _ _; rfl
  | cons m rest ih =>
      intro t hval hpair
      have hm := hval m (List.mem_cons_self m rest)
      have hs : m.start ≤ t.length := le_trans (le_of_lt hm.1) hm.2
      have hlen : (t.take m.start).length = m.start := by
        simp [List.length_take]; omega
      have hrest : ∀ m' ∈ rest, m'.start < m'.stop ∧ m'.stop ≤ (t.take m.start).length := by
        intro m' hm'
        have h1 := hval m' (List.mem_cons_of_mem _ hm')
        have h2 := (List.pairwise_cons.mp hpair).1 m' hm'
        exact ⟨h1.1, by omega⟩
      have hsplit : spliceMark t m =
          t.take m.start ++
            (wrapMark m.type (escape_latex (slice t m.start m.stop)) ++ t.drop m.stop) := by
        rw [spliceMark, List.append_assoc]
      simp only [List.foldl_cons]
      rw [hsplit, foldl_spliceMark_append rest (t.take m.start) _ hrest,
        ih (t.take m.start) hrest (List.pairwise_cons.mp hpair).2]
      simp only [overlayDecomp]
      simp [List.append_assoc]

theorem insertByStart_perm (m : Mark) (l : List Mark) :
    List.Perm (insertByStart m l) (m :: l) := by
  induction l with
  | nil => exact List.Perm.refl _
  | cons x xs ih =>
      simp only [insertByStart]
      by_cases h : x.start ≤ m.start
      · rw [if_pos h]
      · rw [if_neg h]
        exact (List.Perm.cons x ih).trans (List.Perm.swap m x xs)

theorem sortByStartDesc_perm (l : List Mark) : List.Perm (sortByStartDesc l) l := by
  induction l with
  | nil => exact List.Perm.refl _
  | cons m ms ih =>
      exact (insertByStart_perm m (sortByStartDesc ms)).trans (ih.cons m)

theorem insertByStart_sorted (m : Mark) (l : List Mark)
    (h : List.Pairwise (fun a b => b.start ≤ a.start) l) :
    List.Pairwise (fun a b => b.start ≤ a.start) (insertByStart m l) := by
  induction l with
  | nil => simp [insertByStart]
  | cons x xs ih =>
      rcases List.pairwise_cons.mp h with ⟨hx, hxs⟩
      simp only [insertByStart]
      by_cases hc : x.start ≤ m.start
      · rw [if_pos hc]
        refine List.pairwise_cons.mpr ⟨?_, h⟩
        intro b hb
        rcases List.mem_cons.mp hb with rfl | hb2
        · exact hc
        · exact le_trans (hx b hb2) hc
      · rw [if_neg hc]
        refine List.pairwise_cons.mpr ⟨?_, ih hxs⟩
        intro b hb
        have hmem := (insertByStart_perm m xs).mem_iff.mp hb
        rcases List.mem_cons.mp hmem with rfl | hb2
        · exact le_of_lt (lt_of_not_le hc)
        · exact hx b hb2

theorem sortByStartDesc_sorted (l : List Mark) :
    List.Pairwise (fun a b => b.start ≤ a.start) (sortByStartDesc l) := by
  induction l with
  | nil => simp [sortByStartDesc]
  | cons m ms ih => exact insertByStart_sorted m _ ih

theorem strictSorted_of_sorted_disjoint (l : List Mark)
    (hval : ∀ m ∈ l, m.start < m.stop)
    (hdis : List.Pairwise disjointMarks l)
    (hsort : List.Pairwise (fun a b => b.start ≤ a.start) l) :
    List.Pairwise (fun a b => b.start < a.start) l := by
  refine (hsort.and hdis).imp_of_mem ?_
  intro a b ha hb hab
  rcases hab.2 with hd | hd
  · have h1 := hval a ha
    have h2 := hab.1
    omega
  · have h1 := hval b hb
    omega

theorem eq_of_perm_of_strictSorted :
    ∀ l₁ l₂ : List Mark, List.Perm l₁ l₂ →
      List.Pairwise (fun a b => b.start < a.start) l₁ →
      List.Pairwise (fun a b => b.start < a.start) l₂ → l₁ = l₂ := by
  intro l₁
  induction l₁ with
  | nil =>
      intro l₂ hp _ _
      exact (hp.symm.eq_nil).symm
  | cons a t₁ ih =>
      intro l₂ hp h1 h2
      cases l₂ with
      | nil => exact absurd hp.eq_nil (by simp)
      | cons b t₂ =>
          rcases List.pairwise_cons.mp h1 with ⟨ha, ht₁⟩
          rcases List.pairwise_cons.mp h2 with ⟨hb, ht₂⟩
          have hab : a = b := by
            by_contra hne
            have hmem : a ∈ b :: t₂ := hp.mem_iff.mp (List.mem_cons_self a t₁)
            have ha2 : a ∈ t₂ := by
              rcases List.mem_cons.mp hmem with h | h
              · exact absurd h hne
              · exact h
            have hmem2 : b ∈ a :: t₁ := hp.symm.mem_iff.mp (List.mem_cons_self b t₂)
            have hb2 : b ∈ t₁ := by
              rcases List.mem_cons.mp hmem2 with h | h
              · exact absurd h.symm hne
              · exact h
            have hlt1 := hb a ha2
            have hlt2 := ha b hb2
            omega
          subst hab
          rw [ih t₂ hp.cons_inv ht₁ ht₂]

theorem disjointMarks_symm : ∀ {a b : Mark}, disjointMarks a b → disjointMarks b a :=
  fun h => Or.symm h

/-- C5: for a non-empty collection of valid, pairwise disjoint marks the
overlay output decomposes into the uncovered slices of the original text,
verbatim and unescaped, interleaved with the covered slices escaped and
wrapped: reserved characters are escaped only inside mark-covered spans. -/
theorem apply_marks_escapes_only_covered (t : List Char) (ms : List Mark)
    (hne : ms ≠ [])
    (hval : ∀ m ∈ ms, validMark t m)
    (hdis : List.Pairwise disjointMarks ms) :
    apply_marks t ms = overlayDecomp t (sortByStartDesc ms) := by
  have hperm := sortByStartDesc_perm ms
  have hsort := sortByStartDesc_sorted ms
  have hvs : ∀ m ∈ sortByStartDesc ms, m.start < m.stop ∧ m.stop ≤ t.length :=
    fun m hm => hval m (hperm.mem_iff.mp hm)
  have hds : List.Pairwise disjointMarks (sortByStartDesc ms) :=
    (hperm.pairwise_iff disjointMarks_symm).mpr hdis
  have hdesc : List.Pairwise (fun a b => b.stop ≤ a.start) (sortByStartDesc ms) := by
    refine (hsort.and hds).imp_of_mem ?_
    intro a b ha hb hab
    rcases hab.2 with hd | hd
    · have h1 := (hvs a ha).1
      have h2 := hab.1
      omega
    · exact hd
  rw [apply_marks, if_neg hne]
  exact foldl_spliceMark_decomp (sortByStartDesc ms) t hvs hdesc

/-- Witness for C5: two disjoint marks over a text with reserved
characters inside and outside the spans. -/
theorem apply_marks_escapes_only_covered_witness :
    apply_marks (chars "a&b$c") [⟨"italic", 1, 2⟩, ⟨"bold", 3, 4⟩] =
      overlayDecomp (chars "a&b$c")
        (sortByStartDesc [⟨"italic", 1, 2⟩, ⟨"bold", 3, 4⟩]) :=
  apply_marks_escapes_only_covered (chars "a&b$c")
    [⟨"italic", 1, 2⟩, ⟨"bold", 3, 4⟩] (by decide) (by decide) (by decide)

/-- C6: for pairwise disjoint marks with proper spans the overlay output
is invariant under permuting the marks list in memory. -/
theorem apply_marks_order_independent (t : List Char) (ms ms' : List Mark)
    (hperm : List.Perm ms' ms)
    (hval : ∀ m ∈ ms, m.start < m.stop)
    (hdis : List.Pairwise disjointMarks ms) :
    apply_marks t ms' = apply_marks t ms := by
  rcases eq_or_ne ms [] with rfl | hne
  · rw [hperm.eq_nil]
  · have hne' : ms' ≠ [] := by
      intro hD
      subst hD
      exact hne (hperm.symm.eq_nil)
    have hsorteq : sortByStartDesc ms' = sortByStartDesc ms := by
      have hdis' : List.Pairwise disjointMarks ms' :=
        (hperm.pairwise_iff disjointMarks_symm).mpr hdis
      have hval' : ∀ m ∈ ms', m.start < m.stop :=
        fun m hm => hval m (hperm.mem_iff.mp hm)
      have p1 := sortByStartDesc_perm ms'
      have p2 := sortByStartDesc_perm ms
      have st1 := strictSorted_of_sorted_disjoint (sortByStartDesc ms')
        (fun m hm => hval' m (p1.mem_iff.mp hm))
        ((p1.pairwise_iff disjointMarks_symm).mpr hdis')
        (sortByStartDesc_sorted ms')
      have st2 := strictSorted_of_sorted_disjoint (sortByStartDesc ms)
        (fun m hm => hval m (p2.mem_iff.mp hm))
        ((p2.pairwise_iff disjointMarks_symm).mpr hdis)
        (sortByStartDesc_sorted ms)
      exact eq_of_perm_of_strictSorted _ _ (p1.trans (hperm.trans p2.symm)) st1 st2
    rw [apply_marks, apply_marks, if_neg hne, if_neg hne', hsorteq]

/-- Witness for C6: the same two disjoint marks given in either order
produce the same overlay output. -/
theorem apply_marks_order_independent_witness :
    apply_marks (chars "x&y") [⟨"bold", 2, 3⟩, ⟨"italic", 0, 1⟩] =
      apply_marks (chars "x&y") [⟨"italic", 0, 1⟩, ⟨"bold", 2, 3⟩] :=
  apply_marks_order_independent (chars "x&y")
    [⟨"italic", 0, 1⟩, ⟨"bold", 2, 3⟩] [⟨"bold", 2, 3⟩, ⟨"italic", 0, 1⟩]
    (by decide) (by decide) (by decide)

end BlocksToLatex

namespace BlocksToLatex

/-- C7 counterexample: a chapter_heading whose meta.chapter_number is
present with the value 0 renders the unnumbered heading plus TOC entry,
not the numbered chapter command the claim requires for every present
chapter_number. -/
theorem convert_chapter_heading_zero_counterexample :
    convert_chapter_heading (chars "Prologue") (some 0) =
      chapterUnnumbered (chars "Prologue") ++ chars "\n" ++
        tocEntry (chars "Prologue") ∧
    convert_chapter_heading (chars "Prologue") (some 0) ≠
      chapterNumbered (chars "Prologue") := by
  decide

/-- C7 (amended): the chapter_heading fragment is the numbered chapter
command exactly when meta.chapter_number is present with a truthy
(nonzero) value; otherwise it is the unnumbered heading command, a
newline and the TOC entry, and both commands contain the styled text. -/
theorem convert_chapter_heading_numbered_iff (t : List Char) (cn : Option Int) :
    (convert_chapter_heading t cn = chapterNumbered t ↔ intTruthy cn = true) ∧
    (intTruthy cn = false →
      convert_chapter_heading t cn =
        chapterUnnumbered t ++ chars "\n" ++ tocEntry t ∧
      List.IsInfix t (chapterUnnumbered t) ∧ List.IsInfix t (tocEntry t)) := by
  have e1 : (chars "\\chapter*\x7b").length = 10 := rfl
  have e2 : (chars "\x7d").length = 1 := rfl
  have e3 : (chars "\n").length = 1 := rfl
  have e4 : (chars "\\addcontentsline\x7btoc\x7d\x7bchapter\x7d\x7b").length = 31 := rfl
  have e5 : (chars "\\chapter\x7b").length = 9 := rfl
  constructor
  · constructor
    · intro h
      by_contra hc
      have hf : intTruthy cn = false := by
        cases hv : intTruthy cn
        · rfl
        · exact absurd hv hc
      rw [convert_chapter_heading, hf] at h
      simp only [Bool.false_eq_true, if_false] at h
      have hl := congrArg List.length h
      rw [chapterUnnumbered, chapterNumbered, tocEntry] at hl
      simp only [List.length_append, e1, e2, e3, e4, e5] at hl
      omega
    · intro h
      rw [convert_chapter_heading, h]
      simp
  · intro h
    refine ⟨by rw [convert_chapter_heading, h]; simp, ?_, ?_⟩
    · exact ⟨chars "\\chapter*\x7b", chars "\x7d", rfl⟩
    · exact ⟨chars "\\addcontentsline\x7btoc\x7d\x7bchapter\x7d\x7b", chars "\x7d", rfl⟩

/-- Witness for C7: the Prologue scenario, chapter_number absent. -/
theorem convert_chapter_heading_numbered_iff_witness :
    convert_chapter_heading (chars "Prologue") none =
      chapterUnnumbered (chars "Prologue") ++ chars "\n" ++
        tocEntry (chars "Prologue") ∧
    List.IsInfix (chars "Prologue") (chapterUnnumbered (chars "Prologue")) ∧
    List.IsInfix (chars "Prologue") (tocEntry (chars "Prologue")) :=
  (convert_chapter_heading_numbered_iff (chars "Prologue") none).2 rfl

/-- C9: assembling an empty block sequence, for any formatting parameters
and in either mode, produces exactly the newline-terminated preamble
placeholder line and nothing after it. -/
theorem convert_empty_blocks {α : Type} (params : α) (degraded : Bool) :
    convert [] params degraded = chars "% PREAMBLE_PLACEHOLDER\n" := rfl

end BlocksToLatex

namespace PdfValidator

/-- C10 (amended): validate reports valid = true exactly when the errors
list is empty and, for an existing file, valid = false exactly when the
size exceeds the megabyte ceiling, the page count cannot be determined,
or the page count exceeds the page ceiling; a page count below the floor
produces only a warning and leaves the result valid. -/
theorem validate_valid_iff (info : PdfInfo) :
    ((validate info).valid = true ↔ (validate info).errors = []) ∧
    (info.fileExists = true →
      ((validate info).valid = false ↔
        (max_file_size_mb * 1048576 < info.sizeBytes ∨ info.pageCount = none ∨
          ∃ p, info.pageCount = some p ∧ max_pages < p))) := by
  obtain ⟨fe, sz, pc, ver⟩ := info
  cases fe with
  | false =>
      refine ⟨by simp [validate], ?_⟩
      intro h
      cases h
  | true =>
      cases pc with
      | none =>
          refine ⟨?_, fun _ => ?_⟩
          · simp only [validate]
            split_ifs <;> simp_all
          · simp only [validate]
            split_ifs <;> simp_all
      | some p =>
          refine ⟨?_, fun _ => ?_⟩
          · simp only [validate]
            split_ifs <;> simp_all
          · simp only [validate]
            split_ifs <;> simp_all

/-- C10 counterexample: an existing one-megabyte file with 10 pages lies
below the 24-page floor, yet validate reports it valid with only a
page-count warning; the claim requires valid = false for any page count
outside the floor/ceiling bounds. -/
theorem validate_low_page_count_counterexample :
    (validate ⟨true, 1048576, some 10, "1.4"⟩).valid = true ∧
    10 < min_pages ∧
    (validate ⟨true, 1048576, some 10, "1.4"⟩).warnings =
      [PdfWarning.pageCountLow] := by
  decide

/-- Witness for C10: an oversized existing file is invalid, and its
errors list is nonempty accordingly. -/
theorem validate_valid_iff_witness :
    (validate ⟨true, 600 * 1048576, some 100, "1.4"⟩).valid = false ∧
    (validate ⟨true, 600 * 1048576, some 100, "1.4"⟩).errors ≠ [] := by
  have h := validate_valid_iff ⟨true, 600 * 1048576, some 100, "1.4"⟩
  have hfalse : (validate ⟨true, 600 * 1048576, some 100, "1.4"⟩).valid = false :=
    (h.2 rfl).mpr (Or.inl (by decide))
  refine ⟨hfalse, ?_⟩
  intro hnil
  have htrue := h.1.mpr hnil
  rw [hfalse] at htrue
  cases htrue

end PdfValidator

namespace BlocksToLatex

theorem getElem?_spliceMark_left (u : List Char) (m : Mark) (p : Nat)
    (hp : p < m.start) (hu : p < u.length) :
    (spliceMark u m)[p]? = u[p]? := by
  have h1 : p < (u.take m.start).length := by
    simp [List.length_take]; omega
  rw [spliceMark, List.append_assoc, List.getElem?_append_left h1,
    List.getElem?_take_of_lt hp]

theorem getElem?_spliceMark_right (u : List Char) (m : Mark)
    (hv : m.start < m.stop) (hstop : m.stop ≤ u.length) (p : Nat)
    (hp : m.stop ≤ p) (hu : p < u.length) :
    (spliceMark u m)[p + ((spliceMark u m).length - u.length)]? = u[p]? := by
  have hs : m.start ≤ u.length := le_trans (le_of_lt hv) hstop
  have hesc := escape_latex_length (slice u m.start m.stop)
  have hwrap := wrapMark_length m.type (escape_latex (slice u m.start m.stop))
  have hsl : (slice u m.start m.stop).length =
      min (m.stop - m.start) (u.length - m.start) := by
    simp [slice]
  rw [spliceMark]
  rw [List.getElem?_append_right (by
    simp only [List.length_append, List.length_take, List.length_drop]
    omega)]
  rw [List.getElem?_drop]
  congr 1
  simp only [List.length_append, List.length_take, List.length_drop]
  omega

theorem foldl_spliceMark_length (ms : List Mark) :
    ∀ u : List Char, (∀ m ∈ ms, m.start < m.stop ∧ m.stop ≤ u.length) →
      u.length ≤ (List.foldl spliceMark u ms).length := by
  induction ms with
  | nil => intro u _; simp
  | cons m rest ih =>
      intro u h
      have hm := h m (List.mem_cons_self m rest)
      have hgrow := spliceMark_length u m hm.1 hm.2
      simp only [List.foldl_cons]
      refine le_trans hgrow (ih (spliceMark u m) ?_)
      intro m' hm'
      have h' := h m' (List.mem_cons_of_mem _ hm')
      exact ⟨h'.1, h'.2.trans hgrow⟩

theorem foldl_spliceMark_left_phase (ms : List Mark) :
    ∀ (u : List Char) (p : Nat),
      (∀ m ∈ ms, m.start < m.stop ∧ m.stop ≤ u.length) →
      (∀ m ∈ ms, p < m.start) → p < u.length →
      (List.foldl spliceMark u ms)[p]? = u[p]? := by
  induction ms with
  | nil => intro u p _ _ _; rfl
  | cons m rest ih =>
      intro u p hval hleft hp
      have hm := hval m (List.mem_cons_self m rest)
      have hgrow := spliceMark_length u m hm.1 hm.2
      simp only [List.foldl_cons]
      have h1 := ih (spliceMark u m) p
        (fun m' hm' => ⟨(hval m' (List.mem_cons_of_mem _ hm')).1,
          ((hval m' (List.mem_cons_of_mem _ hm')).2).trans hgrow⟩)
        (fun m' hm' => hleft m' (List.mem_cons_of_mem _ hm'))
        (by omega)
      rw [h1]
      exact getElem?_spliceMark_left u m p (hleft m (List.mem_cons_self m rest)) hp

theorem foldl_spliceMark_right_phase (ms : List Mark) :
    ∀ (u : List Char) (p : Nat),
      (∀ m ∈ ms, m.start < m.stop ∧ m.stop ≤ u.length) →
      (∀ m ∈ ms, m.stop ≤ p) → p < u.length →
      (List.foldl spliceMark u ms)[p + ((List.foldl spliceMark u ms).length - u.length)]? =
        u[p]? := by
  induction ms with
  | nil => intro u p _ _ _; simp
  | cons m rest ih =>
      intro u p hval hright hp
      have hm := hval m (List.mem_cons_self m rest)
      have hgrow := spliceMark_length u m hm.1 hm.2
      have hvr : ∀ m' ∈ rest, m'.start < m'.stop ∧ m'.stop ≤ (spliceMark u m).length :=
        fun m' hm' => ⟨(hval m' (List.mem_cons_of_mem _ hm')).1,
          ((hval m' (List.mem_cons_of_mem _ hm')).2).trans hgrow⟩
      have hgrow2 := foldl_spliceMark_length rest (spliceMark u m) hvr
      have hIH := ih (spliceMark u m) (p + ((spliceMark u m).length - u.length)) hvr
        (fun m' hm' => le_trans (hright m' (List.mem_cons_of_mem _ hm'))
          (Nat.le_add_right p _))
        (by omega)
      have hR := getElem?_spliceMark_right u m hm.1 hm.2 p
        (hright m (List.mem_cons_self m rest)) hp
      simp only [List.foldl_cons]
      have hidx : p + ((List.foldl spliceMark (spliceMark u m) rest).length - u.length) =
          (p + ((spliceMark u m).length - u.length)) +
            ((List.foldl spliceMark (spliceMark u m) rest).length -
              (spliceMark u m).length) := by
        omega
      rw [hidx, hIH, hR]

theorem marksBelow_stop_le (p : Nat) :
    ∀ ms : List Mark, List.Pairwise (fun a b => b.start ≤ a.start) ms →
      (∀ m ∈ ms, p < m.start ∨ m.stop ≤ p) →
      ∀ m ∈ marksBelow p ms, m.stop ≤ p := by
  intro ms
  induction ms with
  | nil => intro _ _ m hm; cases hm
  | cons x xs ih =>
      intro hpair hout
      by_cases hx : p < x.start
      · rw [marksBelow, List.dropWhile_cons_of_pos (by simpa using hx)]
        exact ih (List.pairwise_cons.mp hpair).2
          (fun m hm => hout m (List.mem_cons_of_mem _ hm))
      · rw [marksBelow, List.dropWhile_cons_of_neg (by simpa using hx)]
        intro m hm
        rcases List.mem_cons.mp hm with rfl | hm2
        · rcases hout m (List.mem_cons_self m xs) with h | h
          · exact absurd h hx
          · exact h
        · have hle := (List.pairwise_cons.mp hpair).1 m hm2
          rcases hout m (List.mem_cons_of_mem _ hm2) with h | h
          · omega
          · exact h

theorem foldl_spliceMark_split (t : List Char) (P S : List Mark) (p : Nat)
    (hPv : ∀ m ∈ P, m.start < m.stop ∧ m.stop ≤ t.length)
    (hSv : ∀ m ∈ S, m.start < m.stop ∧ m.stop ≤ t.length)
    (hP : ∀ m ∈ P, p < m.start)
    (hS : ∀ m ∈ S, m.stop ≤ p)
    (hp : p < t.length) :
    (List.foldl spliceMark (List.foldl spliceMark t P) S)[p +
      ((List.foldl spliceMark (List.foldl spliceMark t P) S).length -
        (List.foldl spliceMark t P).length)]? = t[p]? := by
  have hu1 := foldl_spliceMark_left_phase P t p hPv hP hp
  have hu1len := foldl_spliceMark_length P t hPv
  have hSv' : ∀ m ∈ S, m.start < m.stop ∧ m.stop ≤ (List.foldl spliceMark t P).length :=
    fun m hm => ⟨(hSv m hm).1, (hSv m hm).2.trans hu1len⟩
  rw [foldl_spliceMark_right_phase S (List.foldl spliceMark t P) p hSv' hS (by omega)]
  exact hu1

/-- C5: for every non-empty collection of valid marks over the text,
nested and overlapping collections included, each character of the text
at a position outside every mark's span is carried into the overlay
output unchanged, at the explicitly computed position p + overlayShift:
marks strictly right of the position never move or touch the character,
and splices of the remaining marks only displace it.  Reserved characters
are therefore escaped only inside mark-covered spans, and text outside
all spans passes through verbatim and unescaped. -/
theorem apply_marks_outside_unescaped (t : List Char) (ms : List Mark)
    (hne : ms ≠ [])
    (hval : ∀ m ∈ ms, validMark t m)
    (p : Nat) (hp : p < t.length)
    (hout : ∀ m ∈ ms, p < m.start ∨ m.stop ≤ p) :
    (apply_marks t ms)[p + overlayShift t ms p]? = t[p]? := by
  have hperm := sortByStartDesc_perm ms
  have hsort := sortByStartDesc_sorted ms
  have hvs : ∀ m ∈ sortByStartDesc ms, m.start < m.stop ∧ m.stop ≤ t.length :=
    fun m hm => hval m (hperm.mem_iff.mp hm)
  have houts : ∀ m ∈ sortByStartDesc ms, p < m.start ∨ m.stop ≤ p :=
    fun m hm => hout m (hperm.mem_iff.mp hm)
  have hP : ∀ m ∈ marksAbove p (sortByStartDesc ms), p < m.start := by
    intro m hm
    have hpm := List.mem_takeWhile_imp hm
    simpa using hpm
  have hS : ∀ m ∈ marksBelow p (sortByStartDesc ms), m.stop ≤ p :=
    marksBelow_stop_le p (sortByStartDesc ms) hsort houts
  have hPv : ∀ m ∈ marksAbove p (sortByStartDesc ms),
      m.start < m.stop ∧ m.stop ≤ t.length :=
    fun m hm => hvs m (List.takeWhile_subset _ hm)
  have hSv : ∀ m ∈ marksBelow p (sortByStartDesc ms),
      m.start < m.stop ∧ m.stop ≤ t.length :=
    fun m hm => hvs m (List.dropWhile_subset _ hm)
  have hmain := foldl_spliceMark_split t (marksAbove p (sortByStartDesc ms))
    (marksBelow p (sortByStartDesc ms)) p hPv hSv hP hS hp
  have hsplit : marksAbove p (sortByStartDesc ms) ++ marksBelow p (sortByStartDesc ms) =
      sortByStartDesc ms := List.takeWhile_append_dropWhile _ _
  have hfold : List.foldl spliceMark t (sortByStartDesc ms) =
      List.foldl spliceMark
        (List.foldl spliceMark t (marksAbove p (sortByStartDesc ms)))
        (marksBelow p (sortByStartDesc ms)) := by
    rw [← List.foldl_append, hsplit]
  rw [apply_marks, if_neg hne, hfold]
  exact hmain

/-- Witness for C5: two nested (overlapping) marks and one mark to the
right of the position, with the reserved ampersand at position 2 outside
all three spans, carried into the output unescaped. -/
theorem apply_marks_outside_unescaped_witness :
    (apply_marks (chars "ab&de")
        [⟨"italic", 0, 2⟩, ⟨"bold", 1, 2⟩, ⟨"smallcaps", 3, 4⟩])[2 +
      overlayShift (chars "ab&de")
        [⟨"italic", 0, 2⟩, ⟨"bold", 1, 2⟩, ⟨"smallcaps", 3, 4⟩] 2]? = some '&' :=
  (apply_marks_outside_unescaped (chars "ab&de")
      [⟨"italic", 0, 2⟩, ⟨"bold", 1, 2⟩, ⟨"smallcaps", 3, 4⟩]
      (by decide) (by decide) 2 (by decide) (by decide)).trans (by decide)

end BlocksToLatex
